import Mathlib

set_option linter.unusedSectionVars false

/-!
Verification development for the restaurant-chatbot server (`server.js`).

The JavaScript source is shallowly embedded: JS objects whose shape the
server controls (menu categories, menu items, offers, restaurant records)
become Lean structures with `Option` fields (`none` = absent/`undefined`),
arbitrary JSON values become the inductive `JVal`, JS truthiness becomes
explicit `Bool`-valued functions, and the in-memory `restaurants` object
becomes an insertion-ordered association list.
-/

/-- JSON-ish value, for record fields the server treats generically.
Numbers are modelled as integers (the server never does float arithmetic on
stored values in the code under study). -/
inductive JVal : Type where
  | jnull : JVal
  | jbool : Bool → JVal
  | jnum : Int → JVal
  | jstr : String → JVal
  | jarr : List JVal → JVal
  | jobj : List (String × JVal) → JVal

/-- JS truthiness of a value (`undefined` is handled by `optTruthy` below).
`NaN` and float `0.0`/`-0.0` do not arise for the modelled values. -/
def jvTruthy : JVal → Bool
  | .jnull => false
  | .jbool b => b
  | .jnum n => n != 0
  | .jstr s => s != ""
  | .jarr _ => true
  | .jobj _ => true

/-- Truthiness of a possibly-absent value: `none` models `undefined`. -/
def optTruthy : Option JVal → Bool
  | none => false
  | some v => jvTruthy v

/-- Property lookup on a JS object literal (first binding wins; objects
built by the server have unique keys). -/
def objGet (kvs : List (String × JVal)) (k : String) : Option JVal :=
  kvs.lookup k

/-- JS `String(v)` / template-literal stringification, for the value forms
that occur here: strings, integers, booleans, null, arrays (joined with
`,`, with null elements rendered empty per `Array.prototype.join`) and
plain objects (`[object Object]`). -/
def jvToStr : JVal → String
  | .jnull => "null"
  | .jbool b => if b then "true" else "false"
  | .jnum n => toString n
  | .jstr s => s
  | .jobj _ => "[object Object]"
  | .jarr xs => String.intercalate "," (xs.attach.map fun ⟨v, _⟩ =>
      match v with
      | .jnull => ""
      | _ => jvToStr v)

/-- ASCII lowercasing, `s.toLowerCase()` on the ASCII strings the merge
compares (JS `toLowerCase` agrees with `Char.toLower` on ASCII). -/
def lowerStr (s : String) : String :=
  ⟨s.data.map Char.toLower⟩

/-- Truthiness of an optional string field (`none` = absent, `some ""` is
falsy like the empty string in JS). -/
def truthyS : Option String → Bool
  | none => false
  | some s => s != ""

/-- JS `a || b` on optional string fields: the first operand if truthy,
otherwise the second operand. -/
def jsOr (a b : Option String) : Option String :=
  if truthyS a then a else b

/-- A menu item, `{name, price, notes, image}`; absent keys are `none`. -/
structure MenuItem where
  name : Option String := none
  price : Option String := none
  notes : Option String := none
  image : Option String := none
deriving DecidableEq, Repr

/-- A menu category, `{category, items}`; the server guards every access
to `items` with `|| []`, so an absent item list is modelled as `[]`. -/
structure MenuCat where
  category : Option String := none
  items : List MenuItem := []
deriving DecidableEq, Repr

/-- Case-insensitive item identity key: `i.name?.toLowerCase()`.
`none` models the `undefined` the optional chain produces for a missing
name (and `undefined === undefined`, so two missing names match). -/
def ikey (i : MenuItem) : Option String :=
  i.name.map lowerStr

/-- Case-insensitive category identity key: `c.category?.toLowerCase()`. -/
def ckey (c : MenuCat) : Option String :=
  c.category.map lowerStr

/-- Field update of a matched existing item (`mergeMenus` inner loop):
`existingItem.price = newItem.price || existingItem.price` and likewise
for `notes` and `image`; `name` is left as the existing name. -/
def updItem (old nw : MenuItem) : MenuItem :=
  { name := old.name
    price := jsOr nw.price old.price
    notes := jsOr nw.notes old.notes
    image := jsOr nw.image old.image }

section GenericUpsert

variable {α κ : Type} [DecidableEq κ]

/-- Generic find-first-by-key upsert into an ordered list: walk the list,
merge into the first element whose key matches (JS `Array.prototype.find`
followed by an in-place update), otherwise push at the end.  Instantiated
at the item level and at the category level of `mergeMenus`. -/
def gupd (key : α → κ) (mrg : α → α → α) : List α → α → List α
  | [], x => [x]
  | a :: as, x =>
    if key a = key x then mrg a x :: as else a :: gupd key mrg as x

end GenericUpsert

/-- One step of the `mergeMenus` inner loop over `newCat.items`. -/
def itemUpd (items : List MenuItem) (x : MenuItem) : List MenuItem :=
  gupd ikey updItem items x

/-- Merging one new category's items into an existing category
(`mergeMenus` matched-category branch): fold the new items through the
find-or-push item update, keeping the existing category name. -/
def catMerge (old nw : MenuCat) : MenuCat :=
  { category := old.category
    items := nw.items.foldl itemUpd old.items }

/-- One step of the `mergeMenus` outer loop over `newMenu`: find an
existing category by case-insensitive name; on a miss push
`{category: newCat.category, items: newCat.items || []}`, on a hit merge
the items. -/
def catUpd (merged : List MenuCat) (c : MenuCat) : List MenuCat :=
  gupd ckey catMerge merged c

/-- `mergeMenus(oldMenu, newMenu)` from `server.js`.  The JS function
starts from `oldMenu.map(c => ({...c, items: [...(c.items || [])]}))`;
on the modelled shape `{category, items}` that spread-copy is the
identity, so the fold starts directly from `oldMenu`. -/
def mergeMenus (oldMenu newMenu : List MenuCat) : List MenuCat :=
  newMenu.foldl catUpd oldMenu

/-- The projections of a JS `Date` that `offerIsActive` reads:
`toISOString().slice(0,10)`, `getDay()`, `getHours()`, `getMinutes()`. -/
structure Instant where
  isoDate : String
  day : Int
  hours : Int
  minutes : Int

/-- An offer as extracted/stored: all fields optional. `daysOfWeek` is
`some l` when the stored value is an array (the only case
`Array.isArray` lets through) and `none` otherwise. -/
structure Offer where
  title : Option String := none
  details : Option String := none
  code : Option String := none
  startDate : Option String := none
  endDate : Option String := none
  startTime : Option String := none
  endTime : Option String := none
  daysOfWeek : Option (List Int) := none
deriving DecidableEq, Repr

/-- JS `Number(s)` restricted to the strings that occur in time fields:
`""` coerces to `0`, a digit string to its value, anything else to `NaN`
(modelled as `none`; `NaN` comparisons below are all false). -/
def jsNumber (s : String) : Option Int :=
  if s = "" then some 0
  else (s.toNat?).map Int.ofNat

/-- `"HH:MM"` to minutes-since-midnight:
`const [h, m] = s.split(":").map(Number)` then `h * 60 + m`, with `NaN`
propagating (`none`).  A missing second component is `undefined`, and
`Number(undefined)` is `NaN`. -/
def hmMinutes (s : String) : Option Int :=
  let parts := s.splitOn ":"
  let h := jsNumber (parts.headD "")
  let m := match parts with
    | _ :: b :: _ => jsNumber b
    | _ => none
  match h, m with
  | some a, some b => some (a * 60 + b)
  | _, _ => none

/-- JS `<` on strings: lexicographic by code unit.  On the strings the
server compares (ASCII ISO dates), code-unit order, code-point order and
`Char` order coincide. -/
def charListLt : List Char → List Char → Bool
  | [], [] => false
  | [], _ :: _ => true
  | _ :: _, [] => false
  | a :: as, b :: bs =>
    if a < b then true else if b < a then false else charListLt as bs

/-- JS `a < b` on strings. -/
def jsStrLt (a b : String) : Bool :=
  charListLt a.data b.data

/-- `x < y` where `y` may be `NaN`: false when `NaN`. -/
def ltNaN (x : Int) (y : Option Int) : Bool :=
  match y with
  | some n => x < n
  | none => false

/-- `x > y` where `y` may be `NaN`: false when `NaN`. -/
def gtNaN (x : Int) (y : Option Int) : Bool :=
  match y with
  | some n => n < x
  | none => false

/-- `offerIsActive(offer, now)` from `server.js`: date window (lexicographic
string comparison), then day-of-week membership, then the optional
time-of-day window. -/
def offerIsActive (o : Offer) (now : Instant) : Bool :=
  let today := now.isoDate
  if (match o.startDate with
      | some s => s != "" && jsStrLt today s
      | none => false) then false
  else if (match o.endDate with
      | some e => e != "" && jsStrLt e today
      | none => false) then false
  else if (match o.daysOfWeek with
      | some l => !l.isEmpty && !l.contains now.day
      | none => false) then false
  else if truthyS o.startTime || truthyS o.endTime then
    let startMin := hmMinutes (if truthyS o.startTime then o.startTime.getD "" else "00:00")
    let endMin := hmMinutes (if truthyS o.endTime then o.endTime.getD "" else "23:59")
    let nowMin : Int := now.hours * 60 + now.minutes
    if ltNaN nowMin startMin || gtNaN nowMin endMin then false else true
  else true

/-- `getActiveOffers(restaurant, now)`: filter the stored offers (the
stored offer list is always an array in this model, so the
`Array.isArray` guard is always satisfied). -/
def getActiveOffers (offers : List Offer) (now : Instant) : List Offer :=
  offers.filter (fun o => offerIsActive o now)

/-- The request body's `menu` field: either an array that decodes as a
menu (the only case `Array.isArray(data.menu)` lets into the merge), or a
present non-array value. -/
inductive MenuField : Type where
  | isArr : List MenuCat → MenuField
  | notArr : JVal → MenuField

/-- The request body's `offers` field, analogously. -/
inductive OffersField : Type where
  | isArr : List Offer → OffersField
  | notArr : JVal → OffersField

/-- A `POST /restaurants/:id` request body.  `none` = key absent; the
fields the handler treats specially are typed, the rest are generic
JSON values shallow-spread onto the record. -/
structure Patch where
  id : Option JVal := none
  menu : Option MenuField := none
  offers : Option OffersField := none
  replace : Option JVal := none
  replaceOffers : Option JVal := none
  name : Option JVal := none
  address : Option JVal := none
  phone : Option JVal := none
  email : Option JVal := none
  googleMapsUrl : Option JVal := none
  orderingLinks : Option JVal := none
  hours : Option JVal := none
  faq : Option JVal := none
  metaSourceUrl : Option JVal := none
  menuSourceUrl : Option JVal := none
  offersSourceUrl : Option JVal := none

/-- A stored restaurant record.  `menu` and `offers` are always arrays in
every record the server stores (default `[]`, and the handlers only ever
assign arrays), so they are typed directly.  `replace`/`replaceOffers`
model the would-be stored control-flag keys (`none` = key absent). -/
structure Rest where
  id : String
  menu : List MenuCat := []
  offers : List Offer := []
  faq : Option JVal := none
  name : Option JVal := none
  address : Option JVal := none
  phone : Option JVal := none
  email : Option JVal := none
  googleMapsUrl : Option JVal := none
  orderingLinks : Option JVal := none
  hours : Option JVal := none
  metaSourceUrl : Option JVal := none
  menuSourceUrl : Option JVal := none
  offersSourceUrl : Option JVal := none
  replace : Option JVal := none
  replaceOffers : Option JVal := none

/-- The in-memory `restaurants` object: insertion-ordered map from id to
record (JS object with string keys preserves insertion order, and
re-assignments keep the original position). -/
abbrev Store : Type := List (String × Rest)

/-- `restaurants[id]` (first binding; stores built by the server have
unique keys). -/
def storeGet : Store → String → Option Rest
  | [], _ => none
  | (k', r) :: st, k => if k = k' then some r else storeGet st k

/-- `restaurants[id] = r`: overwrite in place when the key exists,
otherwise append (JS object insertion order). -/
def storeSet : Store → String → Rest → Store
  | [], k, r => [(k, r)]
  | (k', r') :: st, k, r =>
    if k' = k then (k, r) :: st else (k', r') :: storeSet st k r

/-- The default record for an unseen id:
`{ id, menu: [], offers: [], faq: [] }`. -/
def defaultRest (id : String) : Rest :=
  { id := id, menu := [], offers := [], faq := some (.jarr []) }

/-- The record built by `POST /restaurants/:id`: menu resolution
(`replace` truthy → full replace, else `mergeMenus`), offers resolution
(`replaceOffers` truthy → full replace, else append), then
`{...existing, ...data, id, menu: finalMenu, offers: finalOffers}`
followed by `delete updated.replace; delete updated.replaceOffers`. -/
def upsertRecord (existing : Rest) (id : String) (data : Patch) : Rest :=
  let finalMenu :=
    match data.menu with
    | some (.isArr m) =>
      if optTruthy data.replace then m else mergeMenus existing.menu m
    | _ => existing.menu
  let finalOffers :=
    match data.offers with
    | some (.isArr o) =>
      if optTruthy data.replaceOffers then o else existing.offers ++ o
    | _ => existing.offers
  { id := id
    menu := finalMenu
    offers := finalOffers
    faq := data.faq.or existing.faq
    name := data.name.or existing.name
    address := data.address.or existing.address
    phone := data.phone.or existing.phone
    email := data.email.or existing.email
    googleMapsUrl := data.googleMapsUrl.or existing.googleMapsUrl
    orderingLinks := data.orderingLinks.or existing.orderingLinks
    hours := data.hours.or existing.hours
    metaSourceUrl := data.metaSourceUrl.or existing.metaSourceUrl
    menuSourceUrl := data.menuSourceUrl.or existing.menuSourceUrl
    offersSourceUrl := data.offersSourceUrl.or existing.offersSourceUrl
    replace := none
    replaceOffers := none }

/-- The whole `POST /restaurants/:id` handler's effect on the store. -/
def upsertStore (st : Store) (id : String) (data : Patch) : Store :=
  let existing := (storeGet st id).getD (defaultRest id)
  storeSet st id (upsertRecord existing id data)

/-- The metadata object a successful `/import-metadata-from-url` round
trip delivers (the extraction contract's seven keys; `none` = key absent
in the returned JSON, `some v` = key present and `Object.assign`ed). -/
structure Meta where
  name : Option JVal := none
  address : Option JVal := none
  phone : Option JVal := none
  email : Option JVal := none
  googleMapsUrl : Option JVal := none
  orderingLinks : Option JVal := none
  hours : Option JVal := none

/-- Outcome of the three collaborator calls `rescan-all` makes for one
record: `none` models a failed fetch, an `error` response, or a payload
rejected by the guard (`data.metadata` falsy / `Array.isArray` false). -/
structure RescanFetch where
  meta : Option Meta := none
  menu : Option (List MenuCat) := none
  offers : Option (List Offer) := none

/-- The `updates` object accumulated for one record during `rescan-all`.
`replace`/`replaceOffers` are key-present flags (the code only ever
assigns the literal `true`). -/
structure Updates where
  meta : Meta := {}
  menu : Option (List MenuCat) := none
  replace : Bool := false
  offers : Option (List Offer) := none
  replaceOffers : Bool := false

/-- `Object.keys(updates).length > 0`. -/
def updatesNonempty (u : Updates) : Bool :=
  u.meta.name.isSome || u.meta.address.isSome || u.meta.phone.isSome ||
  u.meta.email.isSome || u.meta.googleMapsUrl.isSome ||
  u.meta.orderingLinks.isSome || u.meta.hours.isSome ||
  u.menu.isSome || u.replace || u.offers.isSome || u.replaceOffers

/-- Build the `updates` object for one record: each sub-resource is
attempted only when its source URL is truthy, and applied only on a
successful, well-shaped response. -/
def mkUpdates (r : Rest) (f : RescanFetch) : Updates :=
  let u : Updates := {}
  let u := if optTruthy r.metaSourceUrl then
      match f.meta with
      | some m => { u with meta := m }
      | none => u
    else u
  let u := if optTruthy r.menuSourceUrl then
      match f.menu with
      | some m => { u with menu := some m, replace := true }
      | none => u
    else u
  if optTruthy r.offersSourceUrl then
    match f.offers with
    | some o => { u with offers := some o, replaceOffers := true }
    | none => u
  else u

/-- `restaurants[id] = {...restaurants[id], ...updates}`: every key
present in `updates` overwrites the record's key. -/
def applyUpdates (cur : Rest) (u : Updates) : Rest :=
  { cur with
    name := u.meta.name.or cur.name
    address := u.meta.address.or cur.address
    phone := u.meta.phone.or cur.phone
    email := u.meta.email.or cur.email
    googleMapsUrl := u.meta.googleMapsUrl.or cur.googleMapsUrl
    orderingLinks := u.meta.orderingLinks.or cur.orderingLinks
    hours := u.meta.hours.or cur.hours
    menu := u.menu.getD cur.menu
    replace := if u.replace then some (.jbool true) else cur.replace
    offers := u.offers.getD cur.offers
    replaceOffers := if u.replaceOffers then some (.jbool true) else cur.replaceOffers }

/-- One record's step of the `rescan-all` loop acting on the store.
In JS, when `restaurants[r.id]` is undefined (possible only when a
record's `id` differs from its storage key) the spread would build a
record without an `id` key; this model forces `id := r.id` there, which
is observable only from stores already violating the id-equals-key
invariant. -/
def rescanStep (acc : Store) (r : Rest) (f : String → RescanFetch) : Store :=
  let u := mkUpdates r (f r.id)
  if updatesNonempty u then
    storeSet acc r.id (applyUpdates ((storeGet acc r.id).getD { id := r.id, faq := none }) u)
  else acc

/-- `POST /admin/rescan-all`: iterate over a snapshot of
`Object.values(restaurants)` (the loop mutates the map, not the
snapshot), refreshing each record from the injected collaborator
outcomes `f`. -/
def rescanStore (st : Store) (f : String → RescanFetch) : Store :=
  (st.map Prod.snd).foldl (fun acc r => rescanStep acc r f) st

/-- An operation on the store, for invariants over operation sequences. -/
inductive StoreOp : Type where
  | upsert : String → Patch → StoreOp
  | rescan : (String → RescanFetch) → StoreOp

/-- Apply one operation. -/
def applyOp (st : Store) : StoreOp → Store
  | .upsert id p => upsertStore st id p
  | .rescan f => rescanStore st f

/-- Apply a sequence of operations, oldest first. -/
def applyOps (st : Store) (ops : List StoreOp) : Store :=
  ops.foldl applyOp st

/-- `restaurant.orderingLinks[0]` (property `0` of an arbitrary value;
`undefined` is `none`).  Reached only behind a truthiness guard, so the
`null`/`undefined` throw cases cannot occur. -/
def jvIndex0 : JVal → Option JVal
  | .jarr (x :: _) => some x
  | .jarr [] => none
  | .jobj kvs => objGet kvs "0"
  | .jstr s => if s = "" then none else some (.jstr (s.take 1))
  | _ => none

/-- Optional-chained `v?.url` on a possibly-undefined value. -/
def jvUrl : Option JVal → Option JVal
  | some (.jobj kvs) => objGet kvs "url"
  | _ => none

/-- The `site` of the chat fallback:
`restaurant.googleMapsUrl || (restaurant.orderingLinks && restaurant.orderingLinks[0]?.url) || ""`.
A falsy intermediate operand is behaviourally interchangeable with `""`
(the chain's last operand), so falsy results are collapsed to `""`. -/
def siteOf (r : Rest) : JVal :=
  if optTruthy r.googleMapsUrl then r.googleMapsUrl.getD (.jstr "")
  else if optTruthy r.orderingLinks then
    match jvUrl (jvIndex0 (r.orderingLinks.getD .jnull)) with
    | some v => if jvTruthy v then v else .jstr ""
    | none => .jstr ""
  else .jstr ""

/-- The `phone` of the chat fallback: `restaurant.phone || ""`. -/
def phoneOf (r : Rest) : JVal :=
  if optTruthy r.phone then r.phone.getD (.jstr "") else .jstr ""

/-- The deterministic fallback message of the `/chat` catch handler. -/
def chatFallback (r : Rest) : String :=
  let phone := phoneOf r
  let site := siteOf r
  let base := "Sorry, I\x27m having trouble answering right now."
  if jvTruthy phone && jvTruthy site then
    base ++ " You can call us at " ++ jvToStr phone ++ " or visit " ++ jvToStr site ++ "."
  else if jvTruthy phone then
    base ++ " You can call the restaurant at " ++ jvToStr phone ++ "."
  else if jvTruthy site then
    base ++ " You can visit our website here: " ++ jvToStr site ++ "."
  else base

/-- A `/chat` response as the client sees it: HTTP status, the `reply`
field, and the `error` field. -/
structure ChatResponse where
  status : Nat
  reply : Option String
  error : Option String
deriving DecidableEq, Repr

/-- The `/chat` handler with the completion collaborator injected:
`completion = some text` is a successful LLM round trip, `none` is any
failure thrown on the reply path, which lands in the catch handler. -/
def chatHandler (st : Store) (restaurantId : String) (completion : Option String) : ChatResponse :=
  match storeGet st restaurantId with
  | none => { status := 404, reply := none, error := some "Restaurant not found" }
  | some r =>
    match completion with
    | some text => { status := 200, reply := some text, error := none }
    | none =>
      { status := 200, reply := some (chatFallback r), error := some "Chat failed internally" }

/-- What `loadRestaurants` gets to look at: the read failed, the read
succeeded but `JSON.parse` threw, or parsing produced a value. -/
inductive FileState : Type where
  | readErr : FileState
  | parseErr : FileState
  | parsed : JVal → FileState

/-- JS property-key coercion `obj[k] = r` for the `id` values that can
reach it (`String(id)`). -/
def jvToPropKey (v : JVal) : String := jvToStr v

/-- Key-preserving insertion into a JSON object (JS object semantics). -/
def objSet : List (String × JVal) → String → JVal → List (String × JVal)
  | [], k, v => [(k, v)]
  | (k', v') :: kvs, k, v =>
    if k' = k then (k, v) :: kvs else (k', v') :: objSet kvs k v

/-- `typeof v === "object"` (true for objects, arrays and `null`). -/
def jvTypeofObject : JVal → Bool
  | .jobj _ => true
  | .jarr _ => true
  | .jnull => true
  | _ => false

/-- Property access `r.id` on an arbitrary parsed value (`undefined` for
primitives; the `null` throw case is unreachable behind the `r &&`
guard). -/
def jvGetId : JVal → Option JVal
  | .jobj kvs => objGet kvs "id"
  | _ => none

/-- `loadRestaurants()` from `server.js`: on any read or parse failure
return `{}`; a parsed non-array value of `typeof "object"` is returned
as-is; a parsed array is re-keyed by each element's `id` (elements that
are falsy or lack a truthy `id` are dropped); any other parse result
yields `{}`. -/
def loadRestaurants : FileState → JVal
  | .readErr => .jobj []
  | .parseErr => .jobj []
  | .parsed v =>
    match v with
    | .jarr xs =>
      .jobj (xs.foldl (fun acc r =>
        if jvTruthy r && optTruthy (jvGetId r) then
          objSet acc (jvToPropKey ((jvGetId r).getD .jnull)) r
        else acc) [])
    | w => if jvTypeofObject w then w else .jobj []

section GenericUpsertIn

variable {α κ : Type} [DecidableEq κ]

/-- Proof auxiliary (not from the source): like `gupd` but with no push on
a miss.  Once every incoming key is already present, `gupd` coincides
with `gupdIn`, which never changes the list's key skeleton. -/
def gupdIn (key : α → κ) (mrg : α → α → α) : List α → α → List α
  | [], _ => []
  | a :: as, x =>
    if key a = key x then mrg a x :: as else a :: gupdIn key mrg as x

end GenericUpsertIn

/-!
Heap model of `mergeMenus`, for its effect on its arguments.  JS menu
item objects are mutable and shared by reference: the merge's copy step
`oldMenu.map(c => ({...c, items: [...(c.items || [])]}))` copies the
category objects and the item *arrays* but not the item *objects*, and
the matched-item branch assigns `existingItem.price = ...` in place.  To
express this, item objects live in a heap (addressed by `Nat`) and menus
hold references. -/

/-- The item heap: cell `a` is the item object at address `a`. -/
abbrev Heap : Type := List MenuItem

/-- Read a heap cell (addresses used by the merge are always in range). -/
def heapGet (h : Heap) (a : Nat) : MenuItem :=
  h.getD a {}

/-- Overwrite a heap cell. -/
def heapSet (h : Heap) (a : Nat) (v : MenuItem) : Heap :=
  h.set a v

/-- A category holding references to item objects. -/
structure HCat where
  category : Option String
  items : List Nat
deriving DecidableEq, Repr

/-- Case-insensitive category key of a reference category. -/
def hckey (c : HCat) : Option String :=
  c.category.map lowerStr

/-- One step of the heap merge's inner loop: look up the first existing
item reference whose (current) name matches the new item's name; push the
new reference on a miss, otherwise overwrite the matched cell in place
with the truthy-wins field update. -/
def hItemStep (acc : Heap × List Nat) (a : Nat) : Heap × List Nat :=
  match acc.2.find? (fun b => ikey (heapGet acc.1 b) = ikey (heapGet acc.1 a)) with
  | none => (acc.1, acc.2 ++ [a])
  | some b => (heapSet acc.1 b (updItem (heapGet acc.1 b) (heapGet acc.1 a)), acc.2)

/-- One step of the heap merge's outer loop over `newMenu`: find the
first category with a matching case-insensitive name; on a hit fold the
new category's item references through the in-place item step, on a miss
push `{category: c.category, items: c.items}` at the end. -/
def hCatOne (h : Heap) (c : HCat) : List HCat → Heap × List HCat
  | [] => (h, [⟨c.category, c.items⟩])
  | m :: ms =>
    if hckey m = hckey c then
      let res := c.items.foldl hItemStep (h, m.items)
      (res.1, ⟨m.category, res.2⟩ :: ms)
    else
      let res := hCatOne h c ms
      (res.1, m :: res.2)

/-- The heap merge's outer step in accumulator form. -/
def hCatStep (acc : Heap × List HCat) (c : HCat) : Heap × List HCat :=
  hCatOne acc.1 c acc.2

/-- `mergeMenus` over the heap: the returned pair is the heap after the
call (recording the in-place item mutations) and the result menu's
reference structure.  The initial `map` is the JS spread copy of each
category with a copied reference array. -/
def mergeMenusH (h : Heap) (oldMenu newMenu : List HCat) : Heap × List HCat :=
  newMenu.foldl hCatStep (h, oldMenu.map (fun c => ⟨c.category, c.items⟩))

/-- All item references reachable from a reference menu. -/
def refsOf (cs : List HCat) : List Nat :=
  (cs.map HCat.items).flatten



/-- The id-equals-storage-key store invariant. -/
def goodIds (st : Store) : Prop :=
  ∀ p ∈ st, (p.2).id = p.1

section GenericLemmas

variable {α κ : Type} [DecidableEq κ] {key : α → κ} {mrg : α → α → α}

theorem key_foldl_mrg (hkey : ∀ a x, key (mrg a x) = key a) :
    ∀ (L : List α) (a : α), key (List.foldl mrg a L) = key a := by
  intro L
  induction L with
  | nil => intro a; rfl
  | cons x L ih => intro a; rw [List.foldl_cons, ih, hkey]

theorem foldl_gupd_cons (hkey : ∀ a x, key (mrg a x) = key a) :
    ∀ (xs : List α) (i : α) (is : List α),
      List.foldl (gupd key mrg) (i :: is) xs
        = List.foldl mrg i (xs.filter fun x => decide (key x = key i))
          :: List.foldl (gupd key mrg) is (xs.filter fun x => decide (key x ≠ key i)) := by
  intro xs
  induction xs with
  | nil => intro i is; simp
  | cons x xs ih =>
    intro i is
    by_cases h : key i = key x
    · have hx : key x = key i := h.symm
      have hfa : (x :: xs).filter (fun y => decide (key y = key i))
          = x :: xs.filter (fun y => decide (key y = key i)) := by
        simp [List.filter_cons, hx]
      have hfb : (x :: xs).filter (fun y => decide (key y ≠ key i))
          = xs.filter (fun y => decide (key y ≠ key i)) := by
        simp [List.filter_cons, hx]
      rw [hfa, hfb, List.foldl_cons,
        show gupd key mrg (i :: is) x = mrg i x :: is from by simp [gupd, if_pos h],
        ih (mrg i x) is]
      simp only [hkey]
      rw [List.foldl_cons]
    · have hx : ¬ key x = key i := fun e => h e.symm
      have hfa : (x :: xs).filter (fun y => decide (key y = key i))
          = xs.filter (fun y => decide (key y = key i)) := by
        simp [List.filter_cons, hx]
      have hfb : (x :: xs).filter (fun y => decide (key y ≠ key i))
          = x :: xs.filter (fun y => decide (key y ≠ key i)) := by
        simp [List.filter_cons, hx]
      rw [hfa, hfb, List.foldl_cons,
        show gupd key mrg (i :: is) x = i :: gupd key mrg is x from by simp [gupd, if_neg h],
        ih i (gupd key mrg is x)]
      rw [List.foldl_cons]

theorem foldl_gupdIn_cons (hkey : ∀ a x, key (mrg a x) = key a) :
    ∀ (xs : List α) (i : α) (is : List α),
      List.foldl (gupdIn key mrg) (i :: is) xs
        = List.foldl mrg i (xs.filter fun x => decide (key x = key i))
          :: List.foldl (gupdIn key mrg) is (xs.filter fun x => decide (key x ≠ key i)) := by
  intro xs
  induction xs with
  | nil => intro i is; simp
  | cons x xs ih =>
    intro i is
    by_cases h : key i = key x
    · have hx : key x = key i := h.symm
      have hfa : (x :: xs).filter (fun y => decide (key y = key i))
          = x :: xs.filter (fun y => decide (key y = key i)) := by
        simp [List.filter_cons, hx]
      have hfb : (x :: xs).filter (fun y => decide (key y ≠ key i))
          = xs.filter (fun y => decide (key y ≠ key i)) := by
        simp [List.filter_cons, hx]
      rw [hfa, hfb, List.foldl_cons,
        show gupdIn key mrg (i :: is) x = mrg i x :: is from by simp [gupdIn, if_pos h],
        ih (mrg i x) is]
      simp only [hkey]
      rw [List.foldl_cons]
    · have hx : ¬ key x = key i := fun e => h e.symm
      have hfa : (x :: xs).filter (fun y => decide (key y = key i))
          = xs.filter (fun y => decide (key y = key i)) := by
        simp [List.filter_cons, hx]
      have hfb : (x :: xs).filter (fun y => decide (key y ≠ key i))
          = x :: xs.filter (fun y => decide (key y ≠ key i)) := by
        simp [List.filter_cons, hx]
      rw [hfa, hfb, List.foldl_cons,
        show gupdIn key mrg (i :: is) x = i :: gupdIn key mrg is x from by simp [gupdIn, if_neg h],
        ih i (gupdIn key mrg is x)]
      rw [List.foldl_cons]

theorem keys_gupdIn (hkey : ∀ a x, key (mrg a x) = key a) :
    ∀ (l : List α) (x : α), (gupdIn key mrg l x).map key = l.map key := by
  intro l
  induction l with
  | nil => intro x; rfl
  | cons a as ih =>
    intro x
    by_cases h : key a = key x
    · simp [gupdIn, if_pos h, hkey]
    · simp [gupdIn, if_neg h, ih]

theorem gupd_eq_gupdIn_of_mem :
    ∀ (l : List α) (x : α), key x ∈ l.map key →
      gupd key mrg l x = gupdIn key mrg l x := by
  intro l
  induction l with
  | nil => intro x hx; simp at hx
  | cons a as ih =>
    intro x hx
    by_cases h : key a = key x
    · simp [gupd, gupdIn, if_pos h]
    · have : key x ∈ as.map key := by
        rcases List.mem_cons.mp hx with h' | h'
        · exact absurd h'.symm h
        · exact h'
      simp [gupd, gupdIn, if_neg h, ih x this]

theorem key_mem_keys_gupd (hkey : ∀ a x, key (mrg a x) = key a) :
    ∀ (l : List α) (x : α), key x ∈ (gupd key mrg l x).map key := by
  intro l
  induction l with
  | nil => intro x; simp [gupd]
  | cons a as ih =>
    intro x
    by_cases h : key a = key x
    · simp [gupd, if_pos h, hkey, h.symm]
    · simp only [gupd, if_neg h, List.map_cons, List.mem_cons]
      exact Or.inr (ih x)

theorem keys_gupd_mono (hkey : ∀ a x, key (mrg a x) = key a) :
    ∀ (l : List α) (x : α) (k : κ), k ∈ l.map key → k ∈ (gupd key mrg l x).map key := by
  intro l
  induction l with
  | nil => intro x k hk; simp at hk
  | cons a as ih =>
    intro x k hk
    rcases List.mem_cons.mp hk with h' | h'
    · by_cases h : key a = key x
      · simp [gupd, if_pos h, hkey, h']
      · simp [gupd, if_neg h, h']
    · by_cases h : key a = key x
      · simp only [gupd, if_pos h, List.map_cons, List.mem_cons]
        exact Or.inr h'
      · simp only [gupd, if_neg h, List.map_cons, List.mem_cons]
        exact Or.inr (ih x k h')

theorem keys_foldl_gupd_mono (hkey : ∀ a x, key (mrg a x) = key a) :
    ∀ (xs : List α) (b : List α) (k : κ), k ∈ b.map key →
      k ∈ (List.foldl (gupd key mrg) b xs).map key := by
  intro xs
  induction xs with
  | nil => intro b k hk; exact hk
  | cons x xs ih =>
    intro b k hk
    exact ih (gupd key mrg b x) k (keys_gupd_mono hkey b x k hk)

theorem keys_present_after (hkey : ∀ a x, key (mrg a x) = key a) :
    ∀ (xs : List α) (b : List α) (x : α), x ∈ xs →
      key x ∈ (List.foldl (gupd key mrg) b xs).map key := by
  intro xs
  induction xs with
  | nil => intro b x hx; simp at hx
  | cons y xs ih =>
    intro b x hx
    rcases List.mem_cons.mp hx with h' | h'
    · subst h'
      exact keys_foldl_gupd_mono hkey xs (gupd key mrg b x) (key x)
        (key_mem_keys_gupd hkey b x)
    · exact ih (gupd key mrg b y) x h'

theorem foldl_gupd_eq_foldl_gupdIn (hkey : ∀ a x, key (mrg a x) = key a) :
    ∀ (xs : List α) (r : List α), (∀ x ∈ xs, key x ∈ r.map key) →
      List.foldl (gupd key mrg) r xs = List.foldl (gupdIn key mrg) r xs := by
  intro xs
  induction xs with
  | nil => intro r _; rfl
  | cons x xs ih =>
    intro r hr
    rw [List.foldl_cons, List.foldl_cons,
      gupd_eq_gupdIn_of_mem r x (hr x (List.mem_cons_self x xs))]
    exact ih (gupdIn key mrg r x) (fun y hy => by
      rw [keys_gupdIn hkey]
      exact hr y (List.mem_cons_of_mem x hy))

theorem gupd_append_of_not_mem :
    ∀ (l : List α) (x : α), key x ∉ l.map key →
      gupd key mrg l x = l ++ [x] := by
  intro l
  induction l with
  | nil => intro x _; rfl
  | cons a as ih =>
    intro x hx
    have h : ¬ key a = key x := by
      intro e; exact hx (by simp [e.symm])
    have : key x ∉ as.map key := fun h' => hx (by simp [h'])
    simp [gupd, if_neg h, ih x this]

theorem foldl_gupd_install :
    ∀ (L : List α) (b : List α), (∀ x ∈ L, key x ∉ b.map key) → (L.map key).Nodup →
      List.foldl (gupd key mrg) b L = b ++ L := by
  intro L
  induction L with
  | nil => intro b _ _; simp
  | cons x L ih =>
    intro b hb hnd
    rw [List.foldl_cons, gupd_append_of_not_mem b x (hb x (List.mem_cons_self x L))]
    have hnd' : (L.map key).Nodup := by
      simpa using hnd.of_cons
    have hx : key x ∉ L.map key := by
      simp only [List.map_cons, List.nodup_cons] at hnd
      exact hnd.1
    rw [ih (b ++ [x]) ?_ hnd']
    · simp
    · intro y hy
      rw [List.map_append]
      intro hmem
      rcases List.mem_append.mp hmem with h' | h'
      · exact hb y (List.mem_cons_of_mem x hy) h'
      · simp only [List.map_cons, List.map_nil, List.mem_singleton] at h'
        exact hx (h' ▸ List.mem_map_of_mem key hy)

end GenericLemmas

section GenericReplay

variable {α κ : Type} [DecidableEq κ] {key : α → κ} {mrg : α → α → α} {G : α → Prop}

theorem ginReplay (hkey : ∀ a x, key (mrg a x) = key a)
    (hf1 : ∀ (a : α) (L : List α),
      List.foldl mrg (List.foldl mrg a L) L = List.foldl mrg a L)
    (hf2 : ∀ (a : α) (L : List α), G a →
      List.foldl mrg (mrg (List.foldl mrg a L) a) L = List.foldl mrg a L) :
    ∀ (n : Nat) (xs b : List α), 2 * xs.length + b.length ≤ n → (∀ x ∈ xs, G x) →
      List.foldl (gupdIn key mrg) (List.foldl (gupd key mrg) b xs) xs
        = List.foldl (gupd key mrg) b xs := by
  intro n
  induction n using Nat.strong_induction_on with
  | _ n ih =>
    intro xs b hn hG
    match b with
    | i :: is =>
      rw [foldl_gupd_cons hkey xs i is, foldl_gupdIn_cons hkey]
      rw [key_foldl_mrg hkey]
      have hmiss : 2 * (xs.filter fun x => decide (key x ≠ key i)).length + is.length < n := by
        have h1 : (xs.filter fun x => decide (key x ≠ key i)).length ≤ xs.length :=
          List.length_filter_le _ _
        simp only [List.length_cons] at hn
        omega
      rw [hf1 i (xs.filter fun x => decide (key x = key i))]
      rw [ih (2 * (xs.filter fun x => decide (key x ≠ key i)).length + is.length) hmiss
        (xs.filter fun x => decide (key x ≠ key i)) is (le_refl _)
        (fun y hy => hG y (List.mem_of_mem_filter hy))]
    | [] =>
      match xs with
      | [] => rfl
      | x :: xs' =>
        have hstep : List.foldl (gupd key mrg) [] (x :: xs')
            = List.foldl (gupd key mrg) [x] xs' := by
          rw [List.foldl_cons]; rfl
        rw [hstep, foldl_gupd_cons hkey xs' x []]
        have hkf : key (List.foldl mrg x (xs'.filter fun y => decide (key y = key x)))
            = key x := key_foldl_mrg hkey _ _
        show List.foldl (gupdIn key mrg)
            (gupdIn key mrg (_ :: _) x) xs' = _
        rw [show gupdIn key mrg
            (List.foldl mrg x (xs'.filter fun y => decide (key y = key x))
              :: List.foldl (gupd key mrg) [] (xs'.filter fun y => decide (key y ≠ key x))) x
            = mrg (List.foldl mrg x (xs'.filter fun y => decide (key y = key x))) x
              :: List.foldl (gupd key mrg) [] (xs'.filter fun y => decide (key y ≠ key x))
          from by simp [gupdIn, if_pos hkf]]
        rw [foldl_gupdIn_cons hkey xs' _ _]
        rw [hkey, key_foldl_mrg hkey]
        rw [hf2 x (xs'.filter fun y => decide (key y = key x)) (hG x (List.mem_cons_self x xs'))]
        have hmiss : 2 * (xs'.filter fun y => decide (key y ≠ key x)).length + 0 < n := by
          have h1 : (xs'.filter fun y => decide (key y ≠ key x)).length ≤ xs'.length :=
            List.length_filter_le _ _
          simp only [List.length_cons, List.length_nil] at hn
          omega
        rw [show (0 : Nat) = ([] : List α).length from rfl] at hmiss
        rw [ih _ hmiss (xs'.filter fun y => decide (key y ≠ key x)) [] (le_refl _)
          (fun y hy => hG y (List.mem_cons_of_mem x (List.mem_of_mem_filter hy)))]

theorem greplay (hkey : ∀ a x, key (mrg a x) = key a)
    (hf1 : ∀ (a : α) (L : List α),
      List.foldl mrg (List.foldl mrg a L) L = List.foldl mrg a L)
    (hf2 : ∀ (a : α) (L : List α), G a →
      List.foldl mrg (mrg (List.foldl mrg a L) a) L = List.foldl mrg a L)
    (xs b : List α) (hG : ∀ x ∈ xs, G x) :
    List.foldl (gupd key mrg) (List.foldl (gupd key mrg) b xs) xs
      = List.foldl (gupd key mrg) b xs := by
  rw [foldl_gupd_eq_foldl_gupdIn hkey xs (List.foldl (gupd key mrg) b xs)
    (fun x hx => keys_present_after hkey xs b x hx)]
  exact ginReplay hkey hf1 hf2 (2 * xs.length + b.length) xs b (le_refl _) hG

end GenericReplay

theorem jsOr_of_truthy {a : Option String} (b : Option String) (h : truthyS a = true) :
    jsOr a b = a := by
  simp [jsOr, h]

theorem jsOr_of_falsy {a : Option String} (b : Option String) (h : truthyS a = false) :
    jsOr a b = b := by
  simp [jsOr, h]

theorem strF1 : ∀ (L : List (Option String)) (v : Option String),
    List.foldl (fun w a => jsOr a w) (List.foldl (fun w a => jsOr a w) v L) L
      = List.foldl (fun w a => jsOr a w) v L := by
  intro L
  induction L with
  | nil => intro v; rfl
  | cons a L ih =>
    intro v
    simp only [List.foldl_cons]
    by_cases h : truthyS a
    · simp only [show ∀ w, jsOr a w = a from fun w => jsOr_of_truthy w h]
    · simp only [show ∀ w, jsOr a w = w from fun w => jsOr_of_falsy w (by simpa using h)]
      exact ih v

theorem strF2 : ∀ (L : List (Option String)) (v : Option String),
    List.foldl (fun w a => jsOr a w) (jsOr v (List.foldl (fun w a => jsOr a w) v L)) L
      = List.foldl (fun w a => jsOr a w) v L := by
  intro L v
  by_cases h : truthyS v
  · rw [jsOr_of_truthy _ h]
  · rw [jsOr_of_falsy _ (by simpa using h)]
    exact strF1 L v

theorem menuItem_eq_of_fields {a b : MenuItem} (h1 : a.name = b.name) (h2 : a.price = b.price)
    (h3 : a.notes = b.notes) (h4 : a.image = b.image) : a = b := by
  cases a; cases b; simp_all

theorem foldl_updItem_name : ∀ (L : List MenuItem) (i : MenuItem),
    (List.foldl updItem i L).name = i.name := by
  intro L
  induction L with
  | nil => intro i; rfl
  | cons a L ih => intro i; rw [List.foldl_cons, ih]; rfl

theorem foldl_updItem_price : ∀ (L : List MenuItem) (i : MenuItem),
    (List.foldl updItem i L).price
      = List.foldl (fun w a => jsOr a w) i.price (L.map MenuItem.price) := by
  intro L
  induction L with
  | nil => intro i; rfl
  | cons a L ih => intro i; simp only [List.foldl_cons, List.map_cons]; rw [ih]; rfl

theorem foldl_updItem_notes : ∀ (L : List MenuItem) (i : MenuItem),
    (List.foldl updItem i L).notes
      = List.foldl (fun w a => jsOr a w) i.notes (L.map MenuItem.notes) := by
  intro L
  induction L with
  | nil => intro i; rfl
  | cons a L ih => intro i; simp only [List.foldl_cons, List.map_cons]; rw [ih]; rfl

theorem foldl_updItem_image : ∀ (L : List MenuItem) (i : MenuItem),
    (List.foldl updItem i L).image
      = List.foldl (fun w a => jsOr a w) i.image (L.map MenuItem.image) := by
  intro L
  induction L with
  | nil => intro i; rfl
  | cons a L ih => intro i; simp only [List.foldl_cons, List.map_cons]; rw [ih]; rfl

theorem updItem_ikey (a x : MenuItem) : ikey (updItem a x) = ikey a := rfl

theorem updItem_name (old nw : MenuItem) : (updItem old nw).name = old.name := rfl

theorem updItem_price (old nw : MenuItem) : (updItem old nw).price = jsOr nw.price old.price := rfl

theorem updItem_notes (old nw : MenuItem) : (updItem old nw).notes = jsOr nw.notes old.notes := rfl

theorem updItem_image (old nw : MenuItem) : (updItem old nw).image = jsOr nw.image old.image := rfl

theorem hf1Item : ∀ (a : MenuItem) (L : List MenuItem),
    List.foldl updItem (List.foldl updItem a L) L = List.foldl updItem a L := by
  intro a L
  apply menuItem_eq_of_fields
  · simp only [foldl_updItem_name]
  · simp only [foldl_updItem_price]
    exact strF1 _ _
  · simp only [foldl_updItem_notes]
    exact strF1 _ _
  · simp only [foldl_updItem_image]
    exact strF1 _ _

theorem hf2Item : ∀ (a : MenuItem) (L : List MenuItem),
    List.foldl updItem (updItem (List.foldl updItem a L) a) L = List.foldl updItem a L := by
  intro a L
  apply menuItem_eq_of_fields
  · simp only [foldl_updItem_name, updItem_name]
  · simp only [foldl_updItem_price, updItem_price, foldl_updItem_name]
    exact strF2 _ _
  · simp only [foldl_updItem_notes, updItem_notes]
    exact strF2 _ _
  · simp only [foldl_updItem_image, updItem_image]
    exact strF2 _ _

theorem itemsReplay (xs b : List MenuItem) :
    List.foldl itemUpd (List.foldl itemUpd b xs) xs = List.foldl itemUpd b xs :=
  @greplay MenuItem (Option String) _ ikey updItem (fun _ => True)
    (fun a x => updItem_ikey a x) hf1Item
    (fun a L _ => hf2Item a L) xs b (fun _ _ => trivial)

theorem catMerge_ckey (a c : MenuCat) : ckey (catMerge a c) = ckey a := rfl

theorem foldl_catMerge_char : ∀ (L : List MenuCat) (a : MenuCat),
    List.foldl catMerge a L
      = ⟨a.category, List.foldl itemUpd a.items ((L.map MenuCat.items).flatten)⟩ := by
  intro L
  induction L with
  | nil => intro a; rfl
  | cons c L ih =>
    intro a
    rw [List.foldl_cons, ih]
    simp only [List.map_cons, List.flatten_cons, List.foldl_append]
    rfl

theorem hf1Cat : ∀ (a : MenuCat) (L : List MenuCat),
    List.foldl catMerge (List.foldl catMerge a L) L = List.foldl catMerge a L := by
  intro a L
  rw [foldl_catMerge_char L a, foldl_catMerge_char L _]
  show (⟨a.category, List.foldl itemUpd
      (List.foldl itemUpd a.items ((L.map MenuCat.items).flatten))
      ((L.map MenuCat.items).flatten)⟩ : MenuCat)
    = ⟨a.category, List.foldl itemUpd a.items ((L.map MenuCat.items).flatten)⟩
  rw [itemsReplay]

theorem installItems (L : List MenuItem) (h : (L.map ikey).Nodup) :
    List.foldl itemUpd [] L = L := by
  have := @foldl_gupd_install MenuItem (Option String) _ ikey updItem L [] (by simp) h
  simpa [itemUpd] using this

theorem hf2Cat : ∀ (a : MenuCat) (L : List MenuCat), (a.items.map ikey).Nodup →
    List.foldl catMerge (catMerge (List.foldl catMerge a L) a) L = List.foldl catMerge a L := by
  intro a L hnd
  have h0 : List.foldl itemUpd [] a.items = a.items := installItems a.items hnd
  have h1 : List.foldl itemUpd a.items ((L.map MenuCat.items).flatten)
      = List.foldl itemUpd [] (a.items ++ (L.map MenuCat.items).flatten) := by
    rw [List.foldl_append, h0]
  rw [foldl_catMerge_char L a]
  rw [show catMerge ⟨a.category, List.foldl itemUpd a.items ((L.map MenuCat.items).flatten)⟩ a
      = ⟨a.category, List.foldl itemUpd
          (List.foldl itemUpd a.items ((L.map MenuCat.items).flatten)) a.items⟩ from rfl]
  rw [foldl_catMerge_char L _]
  show (⟨a.category, List.foldl itemUpd
      (List.foldl itemUpd (List.foldl itemUpd a.items ((L.map MenuCat.items).flatten)) a.items)
      ((L.map MenuCat.items).flatten)⟩ : MenuCat)
    = ⟨a.category, List.foldl itemUpd a.items ((L.map MenuCat.items).flatten)⟩
  congr 1
  rw [h1, ← List.foldl_append, itemsReplay]

theorem mergeMenusReplay (M N : List MenuCat) (h : ∀ c ∈ N, (c.items.map ikey).Nodup) :
    mergeMenus (mergeMenus M N) N = mergeMenus M N :=
  @greplay MenuCat (Option String) _ ckey catMerge (fun c => (c.items.map ikey).Nodup)
    (fun a c => catMerge_ckey a c) hf1Cat
    (fun a L ha => hf2Cat a L ha) N M h


theorem storeGet_set_self : ∀ (st : Store) (k : String) (r : Rest),
    storeGet (storeSet st k r) k = some r := by
  intro st k r
  induction st with
  | nil => simp [storeSet, storeGet]
  | cons p st ih =>
    cases p with
    | mk k' r' =>
      by_cases h : k' = k
      · simp [storeSet, h, storeGet]
      · simp only [storeSet, if_neg h, storeGet]
        rw [if_neg (fun e => h e.symm)]
        exact ih

theorem storeGet_set_ne : ∀ (st : Store) (k : String) (r : Rest) (k' : String), k' ≠ k →
    storeGet (storeSet st k r) k' = storeGet st k' := by
  intro st k r
  induction st with
  | nil =>
    intro k' h
    simp only [storeSet, storeGet]
    rw [if_neg h]
  | cons p st ih =>
    intro k' h
    cases p with
    | mk k₀ r₀ =>
      by_cases h0 : k₀ = k
      · subst h0
        simp only [storeSet, if_pos rfl, storeGet]
        rw [if_neg h, if_neg h]
      · simp only [storeSet, if_neg h0, storeGet]
        by_cases h1 : k' = k₀
        · rw [if_pos h1, if_pos h1]
        · rw [if_neg h1, if_neg h1]
          exact ih k' h

theorem mem_storeSet : ∀ (st : Store) (k : String) (r : Rest) (p : String × Rest),
    p ∈ storeSet st k r → p = (k, r) ∨ p ∈ st := by
  intro st k r
  induction st with
  | nil => intro p hp; simpa [storeSet] using hp
  | cons q st ih =>
    intro p hp
    cases q with
    | mk k₀ r₀ =>
      by_cases h0 : k₀ = k
      · simp only [storeSet, if_pos h0] at hp
        rcases List.mem_cons.mp hp with h | h
        · exact Or.inl h
        · exact Or.inr (List.mem_cons_of_mem _ h)
      · simp only [storeSet, if_neg h0] at hp
        rcases List.mem_cons.mp hp with h | h
        · exact Or.inr (h ▸ List.mem_cons_self _ _)
        · rcases ih p h with h' | h'
          · exact Or.inl h'
          · exact Or.inr (List.mem_cons_of_mem _ h')

theorem storeGet_mem : ∀ (st : Store) (k : String) (r : Rest),
    storeGet st k = some r → (k, r) ∈ st := by
  intro st k
  induction st with
  | nil => intro r h; simp [storeGet] at h
  | cons p st ih =>
    intro r h
    cases p with
    | mk k₀ r₀ =>
      simp only [storeGet] at h
      by_cases h0 : k = k₀
      · rw [if_pos h0] at h
        cases h
        exact h0 ▸ List.mem_cons_self _ _
      · rw [if_neg h0] at h
        exact List.mem_cons_of_mem _ (ih r h)

theorem storeGet_split : ∀ (st : Store) (k : String) (r : Rest),
    storeGet st k = some r →
    ∃ st₁ st₂, st = st₁ ++ (k, r) :: st₂ ∧ ∀ q ∈ st₁, q.1 ≠ k := by
  intro st k
  induction st with
  | nil => intro r h; simp [storeGet] at h
  | cons p st ih =>
    intro r h
    cases p with
    | mk k₀ r₀ =>
      simp only [storeGet] at h
      by_cases h0 : k = k₀
      · rw [if_pos h0] at h
        cases h
        exact ⟨[], st, by simp [h0], by simp⟩
      · rw [if_neg h0] at h
        rcases ih r h with ⟨st₁, st₂, heq, hne⟩
        refine ⟨(k₀, r₀) :: st₁, st₂, by simp [heq], ?_⟩
        intro q hq
        rcases List.mem_cons.mp hq with h' | h'
        · rw [h']; exact fun e => h0 e.symm
        · exact hne q h'

theorem applyUpdates_id (cur : Rest) (u : Updates) : (applyUpdates cur u).id = cur.id := rfl

theorem applyUpdates_menu (cur : Rest) (u : Updates) :
    (applyUpdates cur u).menu = u.menu.getD cur.menu := rfl

theorem upsertRecord_id (existing : Rest) (id : String) (data : Patch) :
    (upsertRecord existing id data).id = id := rfl

theorem goodIds_upsert (st : Store) (id : String) (p : Patch) (h : goodIds st) :
    goodIds (upsertStore st id p) := by
  intro q hq
  rcases mem_storeSet st id _ q hq with h' | h'
  · rw [h']; exact upsertRecord_id _ _ _
  · exact h q h'

theorem goodIds_rescanStep (acc : Store) (r : Rest) (f : String → RescanFetch)
    (h : goodIds acc) : goodIds (rescanStep acc r f) := by
  unfold rescanStep
  by_cases hu : updatesNonempty (mkUpdates r (f r.id))
  · rw [if_pos hu]
    intro q hq
    rcases mem_storeSet acc r.id _ q hq with h' | h'
    · rw [h']
      show (applyUpdates _ _).id = r.id
      rw [applyUpdates_id]
      cases hg : storeGet acc r.id with
      | none => simp [hg]
      | some c =>
        have := h (r.id, c) (storeGet_mem acc r.id c hg)
        simpa [hg] using this
    · exact h q h'
  · rw [if_neg hu]; exact h

theorem goodIds_rescan_fold (L : List Rest) (f : String → RescanFetch) :
    ∀ (acc : Store), goodIds acc →
      goodIds (L.foldl (fun a r => rescanStep a r f) acc) := by
  induction L with
  | nil => intro acc h; exact h
  | cons r L ih =>
    intro acc h
    exact ih (rescanStep acc r f) (goodIds_rescanStep acc r f h)

theorem goodIds_rescan (st : Store) (f : String → RescanFetch) (h : goodIds st) :
    goodIds (rescanStore st f) :=
  goodIds_rescan_fold (st.map Prod.snd) f st h

theorem goodIds_applyOps (st : Store) (ops : List StoreOp) (h : goodIds st) :
    goodIds (applyOps st ops) := by
  induction ops generalizing st with
  | nil => exact h
  | cons op ops ih =>
    cases op with
    | upsert id p => exact ih (upsertStore st id p) (goodIds_upsert st id p h)
    | rescan f => exact ih (rescanStore st f) (goodIds_rescan st f h)

theorem rescanStep_get_ne (acc : Store) (r : Rest) (f : String → RescanFetch) (k : String)
    (h : r.id ≠ k) : storeGet (rescanStep acc r f) k = storeGet acc k := by
  unfold rescanStep
  by_cases hu : updatesNonempty (mkUpdates r (f r.id))
  · rw [if_pos hu]
    exact storeGet_set_ne acc r.id _ k (fun e => h e.symm)
  · rw [if_neg hu]

theorem rescan_fold_get_ne (f : String → RescanFetch) (k : String) :
    ∀ (L : List Rest) (acc : Store), (∀ x ∈ L, x.id ≠ k) →
      storeGet (L.foldl (fun a r => rescanStep a r f) acc) k = storeGet acc k := by
  intro L
  induction L with
  | nil => intro acc _; rfl
  | cons r L ih =>
    intro acc h
    rw [List.foldl_cons, ih (rescanStep acc r f) (fun x hx => h x (List.mem_cons_of_mem r hx)),
      rescanStep_get_ne acc r f k (h r (List.mem_cons_self r L))]

theorem mkUpdates_menu (r : Rest) (f' : RescanFetch) (m : List MenuCat)
    (h1 : optTruthy r.menuSourceUrl = true) (h2 : f'.menu = some m) :
    (mkUpdates r f').menu = some m ∧ updatesNonempty (mkUpdates r f') = true := by
  by_cases hm : optTruthy r.metaSourceUrl <;> by_cases ho : optTruthy r.offersSourceUrl <;>
    cases hmeta : f'.meta <;> cases hoff : f'.offers <;>
      simp [mkUpdates, h1, h2, hm, ho, hmeta, hoff, updatesNonempty]

/-- The one-record rescan step, at the record the step targets. -/
theorem rescanStep_get_self (acc : Store) (r : Rest) (f : String → RescanFetch)
    (hu : updatesNonempty (mkUpdates r (f r.id)) = true) :
    storeGet (rescanStep acc r f) r.id
      = some (applyUpdates ((storeGet acc r.id).getD { id := r.id, faq := none })
          (mkUpdates r (f r.id))) := by
  unfold rescanStep
  rw [if_pos hu]
  exact storeGet_set_self acc r.id _

/-- C5: Rescan is full replace, never merge: for every record with a
truthy `menuSourceUrl`, when the menu extraction call during rescan-all
succeeds and returns a menu array, the record's stored menu afterwards
equals the returned menu exactly — `mergeMenus` is not applied and no
prior category or item survives. -/
theorem C5_rescan_menu_full_replace :
    ∀ (st : Store) (f : String → RescanFetch) (k : String) (r : Rest) (m : List MenuCat),
      goodIds st → (st.map Prod.fst).Nodup →
      storeGet st k = some r → optTruthy r.menuSourceUrl = true → (f k).menu = some m →
      ∃ r', storeGet (rescanStore st f) k = some r' ∧ r'.menu = m := by
  intro st f k r m hgood hnd hget hsrc hmenu
  have hrid : r.id = k := hgood (k, r) (storeGet_mem st k r hget)
  rcases storeGet_split st k r hget with ⟨st₁, st₂, heq, hne₁⟩
  have hnd' : (st₁.map Prod.fst ++ k :: st₂.map Prod.fst).Nodup := by
    rw [heq] at hnd
    simpa using hnd
  have hknot : k ∉ st₂.map Prod.fst :=
    (List.nodup_cons.mp (List.nodup_append.mp hnd').2.1).1
  have hA : ∀ x ∈ st₁.map Prod.snd, x.id ≠ k := by
    intro x hx
    rcases List.mem_map.mp hx with ⟨q, hq, hxq⟩
    have hq' : q ∈ st := by rw [heq]; exact List.mem_append_left _ hq
    rw [← hxq, hgood q hq']
    exact hne₁ q hq
  have hB : ∀ x ∈ st₂.map Prod.snd, x.id ≠ k := by
    intro x hx
    rcases List.mem_map.mp hx with ⟨q, hq, hxq⟩
    have hq' : q ∈ st := by
      rw [heq]; exact List.mem_append_right _ (List.mem_cons_of_mem _ hq)
    rw [← hxq, hgood q hq']
    intro e
    exact hknot (e ▸ List.mem_map_of_mem Prod.fst hq)
  have hsnap : st.map Prod.snd = st₁.map Prod.snd ++ r :: st₂.map Prod.snd := by
    rw [heq]; simp
  unfold rescanStore
  rw [hsnap, List.foldl_append, List.foldl_cons]
  have hu := mkUpdates_menu r (f k) m hsrc hmenu
  have hfr : f r.id = f k := by rw [hrid]
  have hstage1 : storeGet (List.foldl (fun a r => rescanStep a r f) st (st₁.map Prod.snd)) k
      = some r := by
    rw [rescan_fold_get_ne f k (st₁.map Prod.snd) st hA]
    exact hget
  have hstep : storeGet
      (rescanStep (List.foldl (fun a r => rescanStep a r f) st (st₁.map Prod.snd)) r f) k
      = some (applyUpdates r (mkUpdates r (f r.id))) := by
    have := rescanStep_get_self (List.foldl (fun a r => rescanStep a r f) st (st₁.map Prod.snd))
      r f (by rw [hfr]; exact hu.2)
    rw [hrid] at this
    rw [this, hstage1, hfr]
    rfl
  rw [rescan_fold_get_ne f k (st₂.map Prod.snd) _ hB, hstep]
  refine ⟨_, rfl, ?_⟩
  rw [applyUpdates_menu, hfr, hu.1]
  rfl

theorem upsertStore_get (st : Store) (id : String) (p : Patch) :
    storeGet (upsertStore st id p) id
      = some (upsertRecord ((storeGet st id).getD (defaultRest id)) id p) :=
  storeGet_set_self st id _

theorem upsertRecord_offers_append (e : Rest) (id : String) (p : Patch) (B : List Offer)
    (hoff : p.offers = some (.isArr B)) (hrep : optTruthy p.replaceOffers = false) :
    (upsertRecord e id p).offers = e.offers ++ B := by
  simp [upsertRecord, hoff, hrep]

theorem upsertRecord_menu_notArr (e : Rest) (id : String) (p : Patch) (v : JVal)
    (h : p.menu = some (.notArr v)) : (upsertRecord e id p).menu = e.menu := by
  simp [upsertRecord, h]

theorem upsertRecord_offers_notArr (e : Rest) (id : String) (p : Patch) (v : JVal)
    (h : p.offers = some (.notArr v)) : (upsertRecord e id p).offers = e.offers := by
  simp [upsertRecord, h]

/-- C2 (amended): the id-equals-key invariant is preserved by every
sequence of upserts and rescans, and every record stored by an upsert has
its `replace`/`replaceOffers` keys stripped; a successful menu or offers
rescan, however, does store `replace: true`/`replaceOffers: true` on the
record (see the counterexample), so the flags are only guaranteed absent
from upsert-written records. -/
theorem C2_store_invariant_amended :
    (∀ (st : Store) (ops : List StoreOp), goodIds st → goodIds (applyOps st ops)) ∧
    (∀ (st : Store) (id : String) (p : Patch),
      ∃ r, storeGet (upsertStore st id p) id = some r ∧
        r.id = id ∧ r.replace = none ∧ r.replaceOffers = none) := by
  constructor
  · intro st ops h
    exact goodIds_applyOps st ops h
  · intro st id p
    exact ⟨_, upsertStore_get st id p, rfl, rfl, rfl⟩

/-- C2 counterexample: starting from the empty store, an upsert that only
configures `menuSourceUrl` followed by a rescan whose menu fetch succeeds
leaves a stored record whose `replace` key is present (value `true`) —
the rescan path spreads the control flag into the record and never
deletes it. -/
theorem C2_flags_leak_on_rescan_cex :
    (storeGet (applyOps []
        [StoreOp.upsert "r1" { menuSourceUrl := some (.jstr "http://menu") },
         StoreOp.rescan (fun _ => { menu := some [] })]) "r1").map Rest.replace
      = some (some (.jbool true)) := rfl

/-- C2 witness: the amended invariant applied to a concrete operation
sequence from the empty store. -/
theorem C2_store_invariant_amended_witness :
    goodIds (applyOps [] [StoreOp.upsert "a" {}]) ∧
    (∃ r, storeGet (upsertStore [] "a" {}) "a" = some r ∧
      r.id = "a" ∧ r.replace = none ∧ r.replaceOffers = none) :=
  ⟨C2_store_invariant_amended.1 [] [StoreOp.upsert "a" {}]
      (fun p hp => absurd hp (List.not_mem_nil p)),
   C2_store_invariant_amended.2 [] "a" {}⟩

/-- C5 witness: a concrete one-record store whose menu rescan succeeds. -/
theorem C5_rescan_menu_full_replace_witness :
    ∃ r', storeGet (rescanStore
        [("r1", { id := "r1", menu := [⟨some "Old", [⟨some "x", some "$1", none, none⟩]⟩],
                  menuSourceUrl := some (.jstr "http://menu") })]
        (fun _ => { menu := some [⟨some "New", [⟨some "y", some "$2", none, none⟩]⟩] })) "r1"
      = some r' ∧ r'.menu = [⟨some "New", [⟨some "y", some "$2", none, none⟩]⟩] :=
  C5_rescan_menu_full_replace
    [("r1", { id := "r1", menu := [⟨some "Old", [⟨some "x", some "$1", none, none⟩]⟩],
              menuSourceUrl := some (.jstr "http://menu") })]
    (fun _ => { menu := some [⟨some "New", [⟨some "y", some "$2", none, none⟩]⟩] })
    "r1" _ _ (by intro p hp; simp at hp; rw [hp]) (by decide) rfl rfl rfl

/-- C6: offers append semantics: with an existing offers list `A`, an
upsert whose body carries an offers array `B` and a falsy `replaceOffers`
stores exactly `A ++ B` (no de-duplication, no identity matching); in
particular the two-upsert scenario on a fresh store stores
`[{title:"A"}, {title:"B"}]`. -/
theorem C6_offers_append :
    (∀ (st : Store) (id : String) (p : Patch) (r : Rest) (B : List Offer),
      storeGet st id = some r → p.offers = some (.isArr B) →
      optTruthy p.replaceOffers = false →
      ∃ r', storeGet (upsertStore st id p) id = some r' ∧ r'.offers = r.offers ++ B) ∧
    ((storeGet (upsertStore
        (upsertStore [] "r3" { offers := some (.isArr [{ title := some "A" }]) })
        "r3" { offers := some (.isArr [{ title := some "B" }]),
               replaceOffers := some (.jbool false) }) "r3").map Rest.offers
      = some [{ title := some "A" }, { title := some "B" }]) := by
  constructor
  · intro st id p r B hget hoff hrep
    refine ⟨_, upsertStore_get st id p, ?_⟩
    rw [hget]
    exact upsertRecord_offers_append r id p B hoff hrep
  · rfl

/-- C6 witness: the append branch applied at a concrete store. -/
theorem C6_offers_append_witness :
    ∃ r', storeGet (upsertStore [("r3", { id := "r3", offers := [{ title := some "A" }] })]
        "r3" { offers := some (.isArr [{ title := some "B" }]),
               replaceOffers := some (.jbool false) }) "r3" = some r'
      ∧ r'.offers = [{ title := some "A" }] ++ [{ title := some "B" }] :=
  C6_offers_append.1 [("r3", { id := "r3", offers := [{ title := some "A" }] })]
    "r3" _ _ [{ title := some "B" }] rfl rfl rfl

/-- C9: a present non-array `menu` in the request body leaves the stored
menu equal to the prior menu (the explicit `menu:` key written after the
spread wins), and likewise for a present non-array `offers`. -/
theorem C9_non_array_patch_ignored :
    (∀ (st : Store) (id : String) (p : Patch) (r : Rest) (v : JVal),
      storeGet st id = some r → p.menu = some (.notArr v) →
      ∃ r', storeGet (upsertStore st id p) id = some r' ∧ r'.menu = r.menu) ∧
    (∀ (st : Store) (id : String) (p : Patch) (r : Rest) (v : JVal),
      storeGet st id = some r → p.offers = some (.notArr v) →
      ∃ r', storeGet (upsertStore st id p) id = some r' ∧ r'.offers = r.offers) := by
  constructor
  · intro st id p r v hget hm
    refine ⟨_, upsertStore_get st id p, ?_⟩
    rw [hget]
    exact upsertRecord_menu_notArr r id p v hm
  · intro st id p r v hget ho
    refine ⟨_, upsertStore_get st id p, ?_⟩
    rw [hget]
    exact upsertRecord_offers_notArr r id p v ho

/-- C9 witness: a non-array menu value (the string `"oops"`) and a
non-array offers value (the number `3`) leave menu and offers unchanged. -/
theorem C9_non_array_patch_ignored_witness :
    (∃ r', storeGet (upsertStore
        [("r", { id := "r", menu := [⟨some "A", []⟩] })] "r"
        { menu := some (.notArr (.jstr "oops")) }) "r" = some r'
      ∧ r'.menu = [⟨some "A", []⟩]) ∧
    (∃ r', storeGet (upsertStore
        [("r", { id := "r", offers := [{ title := some "T" }] })] "r"
        { offers := some (.notArr (.jnum 3)) }) "r" = some r'
      ∧ r'.offers = [{ title := some "T" }]) :=
  ⟨C9_non_array_patch_ignored.1 [("r", { id := "r", menu := [⟨some "A", []⟩] })]
      "r" _ _ (.jstr "oops") rfl rfl,
   C9_non_array_patch_ignored.2 [("r", { id := "r", offers := [{ title := some "T" }] })]
      "r" _ _ (.jnum 3) rfl rfl⟩

theorem gupd_first_match {α κ : Type} [DecidableEq κ] {key : α → κ} {mrg : α → α → α} :
    ∀ (l : List α) (x : α) (j : Nat) (hj : j < l.length),
      (∀ m (hm : m < j), key (l.get ⟨m, Nat.lt_trans hm hj⟩) ≠ key x) →
      key (l.get ⟨j, hj⟩) = key x →
      gupd key mrg l x = l.set j (mrg (l.get ⟨j, hj⟩) x) := by
  intro l
  induction l with
  | nil => intro x j hj; exact absurd hj (Nat.not_lt_zero j)
  | cons a as ih =>
    intro x j hj hmiss hhit
    cases j with
    | zero =>
      have h : key a = key x := hhit
      simp [gupd, h, List.set]
    | succ j =>
      have h0 : key a ≠ key x := hmiss 0 (Nat.succ_pos j)
      have hj' : j < as.length := Nat.lt_of_succ_lt_succ hj
      simp only [gupd, if_neg h0, List.set]
      congr 1
      exact ih x j hj' (fun m hm => hmiss (m + 1) (Nat.succ_lt_succ hm)) hhit

/-- C1: merge-by-identity with truthy overwrite.  A matched existing item
keeps its name and takes each of price/notes/image from the incoming item
only when the incoming value is truthy; the item update targets exactly
the first case-insensitive name match; and the two-upsert scenario on a
fresh store yields one "Pizza" category with one "Margherita" item whose
price is still "$10" and whose notes is "Classic". -/
theorem C1_merge_truthy_overwrite :
    (∀ (old nw : MenuItem),
      (updItem old nw).name = old.name ∧
      (updItem old nw).price = (if truthyS nw.price then nw.price else old.price) ∧
      (updItem old nw).notes = (if truthyS nw.notes then nw.notes else old.notes) ∧
      (updItem old nw).image = (if truthyS nw.image then nw.image else old.image)) ∧
    (∀ (its : List MenuItem) (x : MenuItem) (j : Nat) (hj : j < its.length),
      (∀ m (hm : m < j), ikey (its.get ⟨m, Nat.lt_trans hm hj⟩) ≠ ikey x) →
      ikey (its.get ⟨j, hj⟩) = ikey x →
      itemUpd its x = its.set j (updItem (its.get ⟨j, hj⟩) x)) ∧
    ((storeGet (upsertStore (upsertStore [] "r2"
        { menu := some (.isArr
            [⟨some "Pizza", [⟨some "Margherita", some "$10", none, none⟩]⟩]) })
        "r2"
        { menu := some (.isArr
            [⟨some "pizza", [⟨some "margherita", some "", some "Classic", none⟩]⟩]) })
        "r2").map Rest.menu
      = some [⟨some "Pizza", [⟨some "Margherita", some "$10", some "Classic", none⟩]⟩]) := by
  refine ⟨fun old nw => ⟨rfl, rfl, rfl, rfl⟩, ?_, ?_⟩
  · intro its x j hj hmiss hhit
    exact gupd_first_match its x j hj hmiss hhit
  · rfl

/-- C1 witness: the first-match update applied at a concrete item list,
showing the falsy price kept and the truthy notes overwritten. -/
theorem C1_merge_truthy_overwrite_witness :
    itemUpd [⟨some "Margherita", some "$10", none, none⟩]
      ⟨some "margherita", some "", some "Classic", none⟩
      = [⟨some "Margherita", some "$10", some "Classic", none⟩] := by
  have h := C1_merge_truthy_overwrite.2.1
    [⟨some "Margherita", some "$10", none, none⟩]
    ⟨some "margherita", some "", some "Classic", none⟩ 0 (by decide)
    (fun m hm => absurd hm (Nat.not_lt_zero m)) (by decide)
  rw [h]
  decide

/-- C4: an offer whose `startDate` and `endDate` are both set (truthy)
with `startDate` lexicographically greater than `endDate` is inactive at
every instant: the date-window check, evaluated first, fails for every
value of `today`. -/
theorem charListLt_iff : ∀ (x y : List Char), charListLt x y = true ↔ x < y := by
  intro x
  induction x with
  | nil =>
    intro y
    cases y with
    | nil =>
      constructor
      · intro h; exact absurd h (by simp [charListLt])
      · intro h; cases h
    | cons b bs =>
      constructor
      · intro _; exact List.nil_lt_cons b bs
      · intro _; rfl
  | cons a as ih =>
    intro y
    cases y with
    | nil =>
      constructor
      · intro h; exact absurd h (by simp [charListLt])
      · intro h; cases h
    | cons b bs =>
      by_cases hab : a < b
      · rw [show charListLt (a :: as) (b :: bs) = true from by simp [charListLt, hab]]
        constructor
        · intro _; exact List.Lex.rel hab
        · intro _; rfl
      · by_cases hba : b < a
        · rw [show charListLt (a :: as) (b :: bs) = false from by simp [charListLt, hab, hba]]
          constructor
          · intro h; exact absurd h (by decide)
          · intro h
            cases h with
            | cons h' => exact absurd hba (lt_irrefl a)
            | rel h' => exact absurd h' hab
        · have hev : a = b := le_antisymm (not_lt.mp hba) (not_lt.mp hab)
          subst hev
          rw [show charListLt (a :: as) (a :: bs) = charListLt as bs from by
            simp [charListLt]]
          constructor
          · intro h; exact List.Lex.cons ((ih bs).mp h)
          · intro h
            cases h with
            | cons h' => exact (ih bs).mpr h'
            | rel h' => exact absurd h' (lt_irrefl a)

theorem C4_empty_date_window_never_active (o : Offer) (now : Instant) (s e : String)
    (hs : o.startDate = some s) (he : o.endDate = some e)
    (hsne : s ≠ "") (hene : e ≠ "") (hlt : jsStrLt e s = true) :
    offerIsActive o now = false := by
  unfold offerIsActive
  rw [hs, he]
  by_cases h : jsStrLt now.isoDate s = true
  · simp [hsne, h]
  · have hlt' : e.data < s.data := (charListLt_iff e.data s.data).mp hlt
    have hns : ¬ now.isoDate.data < s.data := fun hx =>
      h ((charListLt_iff now.isoDate.data s.data).mpr hx)
    have h2 : jsStrLt e now.isoDate = true :=
      (charListLt_iff e.data now.isoDate.data).mpr (lt_of_lt_of_le hlt' (not_lt.mp hns))
    simp [hsne, hene, h, h2]

/-- C4 witness: a concrete reversed date window evaluated at a concrete
instant. -/
theorem C4_empty_date_window_never_active_witness :
    offerIsActive { startDate := some "2024-06-10", endDate := some "2024-06-01" }
      ⟨"2024-06-05", 2, 12, 0⟩ = false :=
  C4_empty_date_window_never_active _ _ "2024-06-10" "2024-06-01" rfl rfl
    (by decide) (by decide) (by decide)

/-- C7 counterexample: a new category containing two items with the same
name is appended verbatim by the first merge, but re-applying the same
`newMenu` routes both updates to the first matching item, changing the
result: `mergeMenus(mergeMenus([], N), N) ≠ mergeMenus([], N)`. -/
theorem C7_not_idempotent_cex :
    mergeMenus (mergeMenus []
        [⟨some "A", [⟨some "x", some "$1", none, none⟩, ⟨some "x", some "$2", none, none⟩]⟩])
        [⟨some "A", [⟨some "x", some "$1", none, none⟩, ⟨some "x", some "$2", none, none⟩]⟩]
      ≠ mergeMenus []
        [⟨some "A", [⟨some "x", some "$1", none, none⟩, ⟨some "x", some "$2", none, none⟩]⟩] := by
  decide

/-- C7 (amended): re-applying an identical `newMenu` a second time changes
nothing, provided no category of `newMenu` contains two items whose names
match case-insensitively (the counterexample shows the hypothesis is
needed: duplicate item names inside one appended category break
idempotence). -/
theorem C7_merge_idempotent_stable_input (M N : List MenuCat)
    (h : ∀ c ∈ N, (c.items.map ikey).Nodup) :
    mergeMenus (mergeMenus M N) N = mergeMenus M N :=
  mergeMenusReplay M N h

/-- C7 witness: idempotence at a concrete merge whose new menu has
distinct item names. -/
theorem C7_merge_idempotent_stable_input_witness :
    mergeMenus (mergeMenus [⟨some "Pizza", [⟨some "Margherita", some "$10", none, none⟩]⟩]
        [⟨some "pizza", [⟨some "margherita", some "$12", none, none⟩,
          ⟨some "Funghi", some "$14", none, none⟩]⟩])
        [⟨some "pizza", [⟨some "margherita", some "$12", none, none⟩,
          ⟨some "Funghi", some "$14", none, none⟩]⟩]
      = mergeMenus [⟨some "Pizza", [⟨some "Margherita", some "$10", none, none⟩]⟩]
        [⟨some "pizza", [⟨some "margherita", some "$12", none, none⟩,
          ⟨some "Funghi", some "$14", none, none⟩]⟩] :=
  C7_merge_idempotent_stable_input _ _ (by decide)

theorem phoneOf_truthy (r : Rest) : jvTruthy (phoneOf r) = optTruthy r.phone := by
  unfold phoneOf
  cases hb : optTruthy r.phone with
  | true =>
    simp only [if_pos rfl]
    cases hp : r.phone with
    | none => rw [hp] at hb; simp [optTruthy] at hb
    | some v =>
      rw [hp] at hb
      simpa [optTruthy] using hb
  | false =>
    simp only [if_neg (by decide : ¬ false = true)]
    simp [jvTruthy]

/-- C8: on completion-collaborator failure for a known restaurant id, the
chat handler returns HTTP 200 with the deterministic fallback as `reply`
and the internal degraded-answer flag in `error`; the fallback extends
the base inability message with the phone and/or site clause exactly when
each is truthy. -/
theorem C8_chat_fallback_policy :
    ∀ (st : Store) (rid : String) (r : Rest), storeGet st rid = some r →
      chatHandler st rid none
        = { status := 200, reply := some (chatFallback r),
            error := some "Chat failed internally" } ∧
      jvTruthy (phoneOf r) = optTruthy r.phone ∧
      (jvTruthy (phoneOf r) = true → jvTruthy (siteOf r) = true →
        chatFallback r = "Sorry, I\x27m having trouble answering right now."
          ++ " You can call us at " ++ jvToStr (phoneOf r) ++ " or visit "
          ++ jvToStr (siteOf r) ++ ".") ∧
      (jvTruthy (phoneOf r) = true → jvTruthy (siteOf r) = false →
        chatFallback r = "Sorry, I\x27m having trouble answering right now."
          ++ " You can call the restaurant at " ++ jvToStr (phoneOf r) ++ ".") ∧
      (jvTruthy (phoneOf r) = false → jvTruthy (siteOf r) = true →
        chatFallback r = "Sorry, I\x27m having trouble answering right now."
          ++ " You can visit our website here: " ++ jvToStr (siteOf r) ++ ".") ∧
      (jvTruthy (phoneOf r) = false → jvTruthy (siteOf r) = false →
        chatFallback r = "Sorry, I\x27m having trouble answering right now.") := by
  intro st rid r hget
  refine ⟨?_, phoneOf_truthy r, ?_, ?_, ?_, ?_⟩
  · unfold chatHandler
    rw [hget]
  · intro hp hs
    simp [chatFallback, hp, hs]
  · intro hp hs
    simp [chatFallback, hp, hs]
  · intro hp hs
    simp [chatFallback, hp, hs]
  · intro hp hs
    simp [chatFallback, hp, hs]

/-- C8 witness: a failed completion for a stored record with a phone
number yields the 200-status fallback response. -/
theorem C8_chat_fallback_policy_witness :
    chatHandler [("r", { id := "r", phone := some (.jstr "555-1234") })] "r" none
      = { status := 200,
          reply := some (chatFallback { id := "r", phone := some (.jstr "555-1234") }),
          error := some "Chat failed internally" } :=
  (C8_chat_fallback_policy [("r", { id := "r", phone := some (.jstr "555-1234") })] "r"
    { id := "r", phone := some (.jstr "555-1234") } rfl).1

/-- C10 (amended): a read failure, a parse failure, or a parsed number,
string or boolean all yield the empty map; a parsed object is returned
as-is; but the JSON literal `null` passes the `typeof === "object"` check
and is returned as-is, so a `null` persistence file yields a `null`
store, not an empty map. -/
theorem C10_load_restaurants_amended :
    loadRestaurants .readErr = .jobj [] ∧
    loadRestaurants .parseErr = .jobj [] ∧
    (∀ n : Int, loadRestaurants (.parsed (.jnum n)) = .jobj []) ∧
    (∀ s : String, loadRestaurants (.parsed (.jstr s)) = .jobj []) ∧
    (∀ b : Bool, loadRestaurants (.parsed (.jbool b)) = .jobj []) ∧
    (∀ kvs, loadRestaurants (.parsed (.jobj kvs)) = .jobj kvs) ∧
    loadRestaurants (.parsed .jnull) = .jnull :=
  ⟨rfl, rfl, fun _ => rfl, fun _ => rfl, fun _ => rfl, fun _ => rfl, rfl⟩

/-- C10 counterexample: the parsed JSON literal `null` is not mapped to
the empty store — `loadRestaurants` returns it unchanged. -/
theorem C10_null_store_cex : loadRestaurants (.parsed .jnull) ≠ .jobj [] :=
  fun h => JVal.noConfusion h

theorem heapSet_length (h : Heap) (b : Nat) (v : MenuItem) :
    (heapSet h b v).length = h.length :=
  List.length_set h b v

theorem heapGet_set_same : ∀ (h : Heap) (b : Nat) (v : MenuItem), b < h.length →
    heapGet (heapSet h b v) b = v := by
  intro h
  induction h with
  | nil => intro b v hb; exact absurd hb (by simp)
  | cons x h ih =>
    intro b v hb
    cases b with
    | zero => rfl
    | succ b => exact ih b v (Nat.lt_of_succ_lt_succ hb)

theorem heapSet_oob : ∀ (h : Heap) (b : Nat) (v : MenuItem), ¬ b < h.length →
    heapSet h b v = h := by
  intro h
  induction h with
  | nil => intro b v _; rfl
  | cons x h ih =>
    intro b v hb
    cases b with
    | zero => exact absurd (by simp) hb
    | succ b =>
      show x :: heapSet h b v = x :: h
      rw [ih b v (fun hlt => hb (Nat.succ_lt_succ hlt))]

theorem heapGet_set_ne : ∀ (h : Heap) (b : Nat) (v : MenuItem) (x : Nat), x ≠ b →
    heapGet (heapSet h b v) x = heapGet h x := by
  intro h
  induction h with
  | nil => intro b v x _; rfl
  | cons y h ih =>
    intro b v x hx
    cases b with
    | zero =>
      cases x with
      | zero => exact absurd rfl hx
      | succ x => rfl
    | succ b =>
      cases x with
      | zero => rfl
      | succ x =>
        show heapGet (heapSet h b v) x = heapGet h x
        exact ih b v x (fun e => hx (by rw [e]))

theorem heap_step_name (h : Heap) (b : Nat) (w : MenuItem) (x : Nat) :
    (heapGet (heapSet h b (updItem (heapGet h b) w)) x).name = (heapGet h x).name := by
  by_cases hxb : x = b
  · subst hxb
    by_cases hlt : x < h.length
    · rw [heapGet_set_same h x _ hlt, updItem_name]
    · rw [heapSet_oob h x _ hlt]
  · rw [heapGet_set_ne h b _ x hxb]

theorem hItemStep_fst_length (acc : Heap × List Nat) (a : Nat) :
    ((hItemStep acc a).1).length = acc.1.length := by
  unfold hItemStep
  cases hfind : acc.2.find? (fun b => ikey (heapGet acc.1 b) = ikey (heapGet acc.1 a)) with
  | none => rfl
  | some b => exact heapSet_length acc.1 b _

theorem hItemStep_fst_name (acc : Heap × List Nat) (a : Nat) (x : Nat) :
    (heapGet ((hItemStep acc a).1) x).name = (heapGet acc.1 x).name := by
  unfold hItemStep
  cases hfind : acc.2.find? (fun b => ikey (heapGet acc.1 b) = ikey (heapGet acc.1 a)) with
  | none => rfl
  | some b => exact heap_step_name acc.1 b _ x

theorem innerFold_length : ∀ (L : List Nat) (h : Heap) (its : List Nat),
    ((L.foldl hItemStep (h, its)).1).length = h.length := by
  intro L
  induction L with
  | nil => intro h its; rfl
  | cons a L ih =>
    intro h its
    rw [List.foldl_cons]
    cases hstep : hItemStep (h, its) a with
    | mk h' its' =>
      have hl : h'.length = h.length := by
        have := hItemStep_fst_length (h, its) a
        rw [hstep] at this
        exact this
      rw [← hl]
      exact ih h' its'

theorem innerFold_name : ∀ (L : List Nat) (h : Heap) (its : List Nat) (x : Nat),
    (heapGet ((L.foldl hItemStep (h, its)).1) x).name = (heapGet h x).name := by
  intro L
  induction L with
  | nil => intro h its x; rfl
  | cons a L ih =>
    intro h its x
    rw [List.foldl_cons]
    cases hstep : hItemStep (h, its) a with
    | mk h' its' =>
      have hn : (heapGet h' x).name = (heapGet h x).name := by
        have := hItemStep_fst_name (h, its) a x
        rw [hstep] at this
        exact this
      rw [← hn]
      exact ih h' its' x

theorem innerFold_frame : ∀ (L : List Nat) (h : Heap) (its : List Nat) (a : Nat),
    a ∉ its → a ∉ L →
      heapGet ((L.foldl hItemStep (h, its)).1) a = heapGet h a
      ∧ ∀ z ∈ (L.foldl hItemStep (h, its)).2, z ∈ its ∨ z ∈ L := by
  intro L
  induction L with
  | nil =>
    intro h its a _ _
    exact ⟨rfl, fun z hz => Or.inl hz⟩
  | cons x L ih =>
    intro h its a hits hL
    have hax : a ≠ x := fun e => hL (e ▸ List.mem_cons_self x L)
    have haL : a ∉ L := fun e => hL (List.mem_cons_of_mem x e)
    rw [List.foldl_cons]
    cases hfind : its.find? (fun b => ikey (heapGet h b) = ikey (heapGet h x)) with
    | none =>
      rw [show hItemStep (h, its) x = (h, its ++ [x]) from by
        unfold hItemStep; rw [hfind]]
      have hits' : a ∉ its ++ [x] := by
        intro hmem
        rcases List.mem_append.mp hmem with hm | hm
        · exact hits hm
        · exact hax (List.mem_singleton.mp hm)
      rcases ih h (its ++ [x]) a hits' haL with ⟨h1, h2⟩
      refine ⟨h1, fun z hz => ?_⟩
      rcases h2 z hz with hm | hm
      · rcases List.mem_append.mp hm with hm' | hm'
        · exact Or.inl hm'
        · exact Or.inr (List.mem_singleton.mp hm' ▸ List.mem_cons_self x L)
      · exact Or.inr (List.mem_cons_of_mem x hm)
    | some b =>
      rw [show hItemStep (h, its) x
          = (heapSet h b (updItem (heapGet h b) (heapGet h x)), its) from by
        unfold hItemStep; rw [hfind]]
      have hb : b ∈ its := List.mem_of_find?_eq_some hfind
      have hab : a ≠ b := fun e => hits (e ▸ hb)
      rcases ih (heapSet h b (updItem (heapGet h b) (heapGet h x))) its a hits haL with ⟨h1, h2⟩
      refine ⟨?_, fun z hz => ?_⟩
      · rw [h1, heapGet_set_ne h b _ a hab]
      · rcases h2 z hz with hm | hm
        · exact Or.inl hm
        · exact Or.inr (List.mem_cons_of_mem x hm)

theorem refsOf_nil : refsOf [] = [] := rfl

theorem refsOf_cons (c : HCat) (cs : List HCat) :
    refsOf (c :: cs) = c.items ++ refsOf cs := by
  simp [refsOf]

theorem refsOf_copy (cs : List HCat) :
    refsOf (cs.map fun c => (⟨c.category, c.items⟩ : HCat)) = refsOf cs := by
  induction cs with
  | nil => rfl
  | cons c cs ih => simp only [List.map_cons, refsOf_cons, ih]

theorem hCatOne_length : ∀ (ms : List HCat) (h : Heap) (c : HCat),
    ((hCatOne h c ms).1).length = h.length := by
  intro ms
  induction ms with
  | nil => intro h c; rfl
  | cons m ms ih =>
    intro h c
    by_cases hk : hckey m = hckey c
    · simp only [hCatOne, if_pos hk]
      exact innerFold_length c.items h m.items
    · simp only [hCatOne, if_neg hk]
      exact ih h c

theorem hCatOne_name : ∀ (ms : List HCat) (h : Heap) (c : HCat) (x : Nat),
    (heapGet ((hCatOne h c ms).1) x).name = (heapGet h x).name := by
  intro ms
  induction ms with
  | nil => intro h c x; rfl
  | cons m ms ih =>
    intro h c x
    by_cases hk : hckey m = hckey c
    · simp only [hCatOne, if_pos hk]
      exact innerFold_name c.items h m.items x
    · simp only [hCatOne, if_neg hk]
      exact ih h c x

theorem hCatOne_frame : ∀ (ms : List HCat) (h : Heap) (c : HCat) (a : Nat),
    a ∉ refsOf ms → a ∉ c.items →
      heapGet ((hCatOne h c ms).1) a = heapGet h a
      ∧ a ∉ refsOf (hCatOne h c ms).2 := by
  intro ms
  induction ms with
  | nil =>
    intro h c a _ hc
    refine ⟨rfl, ?_⟩
    rw [show (hCatOne h c []).2 = [⟨c.category, c.items⟩] from rfl, refsOf_cons]
    simp only [refsOf_nil, List.append_nil]
    exact hc
  | cons m ms ih =>
    intro h c a hms hc
    rw [refsOf_cons] at hms
    have hm : a ∉ m.items := fun e => hms (List.mem_append_left _ e)
    have hms' : a ∉ refsOf ms := fun e => hms (List.mem_append_right _ e)
    by_cases hk : hckey m = hckey c
    · simp only [hCatOne, if_pos hk]
      rcases innerFold_frame c.items h m.items a hm hc with ⟨h1, h2⟩
      refine ⟨h1, ?_⟩
      rw [refsOf_cons]
      intro hmem
      rcases List.mem_append.mp hmem with hm' | hm'
      · rcases h2 a hm' with hz | hz
        · exact hm hz
        · exact hc hz
      · exact hms' hm'
    · simp only [hCatOne, if_neg hk]
      rcases ih h c a hms' hc with ⟨h1, h2⟩
      refine ⟨h1, ?_⟩
      rw [refsOf_cons]
      intro hmem
      rcases List.mem_append.mp hmem with hm' | hm'
      · exact hm hm'
      · exact h2 hm'

theorem outerFold_length : ∀ (N : List HCat) (h : Heap) (merged : List HCat),
    ((N.foldl hCatStep (h, merged)).1).length = h.length := by
  intro N
  induction N with
  | nil => intro h merged; rfl
  | cons c N ih =>
    intro h merged
    rw [List.foldl_cons]
    cases hstep : hCatStep (h, merged) c with
    | mk h' merged' =>
      have hl : h'.length = h.length := by
        have := hCatOne_length merged h c
        rw [show hCatOne h c merged = (h', merged') from hstep] at this
        exact this
      rw [← hl]
      exact ih h' merged'

theorem outerFold_name : ∀ (N : List HCat) (h : Heap) (merged : List HCat) (x : Nat),
    (heapGet ((N.foldl hCatStep (h, merged)).1) x).name = (heapGet h x).name := by
  intro N
  induction N with
  | nil => intro h merged x; rfl
  | cons c N ih =>
    intro h merged x
    rw [List.foldl_cons]
    cases hstep : hCatStep (h, merged) c with
    | mk h' merged' =>
      have hn : (heapGet h' x).name = (heapGet h x).name := by
        have := hCatOne_name merged h c x
        rw [show hCatOne h c merged = (h', merged') from hstep] at this
        exact this
      rw [← hn]
      exact ih h' merged' x

theorem outerFold_frame : ∀ (N : List HCat) (h : Heap) (merged : List HCat) (a : Nat),
    a ∉ refsOf merged → a ∉ refsOf N →
      heapGet ((N.foldl hCatStep (h, merged)).1) a = heapGet h a := by
  intro N
  induction N with
  | nil => intro h merged a _ _; rfl
  | cons c N ih =>
    intro h merged a hm hN
    rw [refsOf_cons] at hN
    have hc : a ∉ c.items := fun e => hN (List.mem_append_left _ e)
    have hN' : a ∉ refsOf N := fun e => hN (List.mem_append_right _ e)
    rw [List.foldl_cons]
    cases hstep : hCatStep (h, merged) c with
    | mk h' merged' =>
      rcases hCatOne_frame merged h c a hm hc with ⟨h1, h2⟩
      rw [show hCatOne h c merged = (h', merged') from hstep] at h1 h2
      rw [ih h' merged' a h2 hN']
      exact h1

/-- C3 counterexample: `mergeMenus` mutates an item object that `oldMenu`
references.  Old menu = Pizza referencing heap cell 0 (`$10`), new menu =
Pizza referencing cell 1 (`$12`): after the merge, cell 0 — oldMenu's
Margherita — has price `$12`. -/
theorem C3_old_item_mutated_cex :
    heapGet (mergeMenusH
        [⟨some "Margherita", some "$10", none, none⟩,
         ⟨some "Margherita", some "$12", none, none⟩]
        [⟨some "Pizza", [0]⟩] [⟨some "Pizza", [1]⟩]).1 0
      ≠ heapGet
        [⟨some "Margherita", some "$10", none, none⟩,
         ⟨some "Margherita", some "$12", none, none⟩] 0 := by
  decide

/-- C3 (amended): `mergeMenus` copies the category list and the item
reference lists but shares the item objects: it never creates or destroys
an item object (the heap keeps its length), never changes any item's
`name`, and leaves every heap cell not referenced by either argument
untouched — but a matched item (shared with `oldMenu`) is updated in
place, as the counterexample shows, so `oldMenu`'s items are not
unchanged in general. -/
theorem C3_merge_heap_effects :
    (∀ (h : Heap) (oldMenu newMenu : List HCat),
      ((mergeMenusH h oldMenu newMenu).1).length = h.length) ∧
    (∀ (h : Heap) (oldMenu newMenu : List HCat) (x : Nat),
      (heapGet ((mergeMenusH h oldMenu newMenu).1) x).name = (heapGet h x).name) ∧
    (∀ (h : Heap) (oldMenu newMenu : List HCat) (a : Nat),
      a ∉ refsOf oldMenu → a ∉ refsOf newMenu →
      heapGet ((mergeMenusH h oldMenu newMenu).1) a = heapGet h a) := by
  refine ⟨?_, ?_, ?_⟩
  · intro h oldMenu newMenu
    exact outerFold_length newMenu h _
  · intro h oldMenu newMenu x
    exact outerFold_name newMenu h _ x
  · intro h oldMenu newMenu a hold hnew
    exact outerFold_frame newMenu h _ a (by rwa [refsOf_copy]) hnew

/-- C3 witness: the frame part at a concrete heap — the unreferenced cell
2 is untouched by the merge. -/
theorem C3_merge_heap_effects_witness :
    heapGet (mergeMenusH
        [⟨some "a", some "$1", none, none⟩, ⟨some "b", some "$2", none, none⟩,
         ⟨some "spare", some "$9", none, none⟩]
        [⟨some "Pizza", [0]⟩] [⟨some "pizza", [1]⟩]).1 2
      = heapGet
        [⟨some "a", some "$1", none, none⟩, ⟨some "b", some "$2", none, none⟩,
         ⟨some "spare", some "$9", none, none⟩] 2 :=
  C3_merge_heap_effects.2.2
    [⟨some "a", some "$1", none, none⟩, ⟨some "b", some "$2", none, none⟩,
     ⟨some "spare", some "$9", none, none⟩]
    [⟨some "Pizza", [0]⟩] [⟨some "pizza", [1]⟩] 2 (by decide) (by decide)
